import Mathlib

/-!
Verification of the dtvem.cli version manager.

This file gives a shallow embedding, in Lean, of the parts of the Go source
that the specification talks about: the partial-version resolver
(package `version`), the default manifest source chain (package `manifest`),
the HTTP retry helper and upstream job collection (mirror-binaries script),
the Windows PATH installer (package `path`), the settings loader
(package `config`), and the list-command active-version marking.

Go strings are modelled as lists of characters; Go `int` is modelled as `Int`
(version components and retry counts are far from overflow); fallible Go
functions returning `(T, error)` are modelled as `Except`/`Option`.
-/

deriving instance DecidableEq for Except

namespace Dtvem

/-- Go strings are modelled as lists of characters. -/
abbrev GoStr := List Char

/-- Convert a Lean string literal to the `GoStr` model. -/
def gs (s : String) : GoStr := s.data

/-! ## Shared Go string primitives -/

/-- Go `strings.TrimPrefix(s, "v")`: drop one leading `'v'` when present. -/
def trimPrefixV (s : GoStr) : GoStr :=
  match s with
  | [] => []
  | c :: rest => if c = 'v' then rest else c :: rest

/-- Splitting a string at every character satisfying `p`, keeping empty
fields: the common core of Go `strings.Split` (single-character separator)
and `strings.FieldsFunc` (which additionally drops empty fields).
The result is always nonempty. -/
def splitOnP (p : Char → Bool) : GoStr → List GoStr
  | [] => [[]]
  | c :: cs =>
    let r := splitOnP p cs
    if p c then [] :: r
    else (c :: r.headD []) :: r.tail

/-- Go `strings.Split(s, ".")`. -/
def splitDot (s : GoStr) : List GoStr := splitOnP (fun c => c == '.') s

/-- Go `strings.Split(s, ";")`. -/
def splitSemi (s : GoStr) : List GoStr := splitOnP (fun c => c == ';') s

/-- The separator predicate of `parseVersionParts`: `'.'` or `'-'`. -/
def dotDash (c : Char) : Bool := c == '.' || c == '-'

/-- Go `strings.FieldsFunc(s, c == '.' || c == '-')`: maximal runs of
non-separator characters, i.e. split fields with the empty ones dropped. -/
def fieldsDotDash (s : GoStr) : List GoStr :=
  (splitOnP dotDash s).filter (fun f => !f.isEmpty)

/-- Numeric value of an ASCII digit. -/
def digitVal (c : Char) : Option Nat :=
  if '0' ≤ c ∧ c ≤ '9' then some (c.toNat - '0'.toNat) else none

/-- Decimal digit-string accumulator used by `atoi`. -/
def parseNatGo : GoStr → Nat → Option Nat
  | [], acc => some acc
  | c :: cs, acc =>
    match digitVal c with
    | some d => parseNatGo cs (acc * 10 + d)
    | none => none

/-- Go `strconv.Atoi`: optional sign, then one or more decimal digits.
Overflow is not modelled: version components and PATH data stay tiny. -/
def atoi : GoStr → Option Int
  | [] => none
  | '+' :: rest => if rest = [] then none else (parseNatGo rest 0).map (fun n => (n : Int))
  | '-' :: rest => if rest = [] then none else (parseNatGo rest 0).map (fun n => -(n : Int))
  | s => (parseNatGo s 0).map (fun n => (n : Int))

/-! ## Package `version` (src/unnamed/part_003) -/

/-- `parseVersionParts`: strip the `v` prefix, split on `'.'` and `'-'`,
keep the fields that parse as integers. -/
def parseVersionParts (version : GoStr) : List Int :=
  (fieldsDotDash (trimPrefixV version)).filterMap atoi

/-- The comparison loop of `compareVersionStrings` over the two part lists:
components are compared index by index, an index past the end of a list
reading as `0`; the first differing pair decides via subtraction. -/
def cmpTail : List Int → Int
  | [] => 0
  | b :: bs => if b ≠ 0 then -b else cmpTail bs

/-- Symmetric counterpart of `cmpTail` for a nonempty left list against
an exhausted right list. -/
def cmpHead : List Int → Int
  | [] => 0
  | a :: as => if a ≠ 0 then a else cmpHead as

/-- Component-list comparison: the `for i := 0; i < maxLen` loop of
`compareVersionStrings`, with out-of-range components read as `0`. -/
def cmpParts : List Int → List Int → Int
  | [], bs => cmpTail bs
  | a :: as, [] => cmpHead (a :: as)
  | a :: as, b :: bs => if a ≠ b then a - b else cmpParts as bs

/-- `compareVersionStrings`: positive when `a` sorts above `b`, negative
below, `0` when the numeric parts coincide. -/
def compareVersionStrings (a b : GoStr) : Int :=
  cmpParts (parseVersionParts a) (parseVersionParts b)

/-- Component check of the source function `matchesPartial`: a partial
component matches numerically when both sides parse as integers, and by
plain string equality otherwise. The `(_ :: _, [])` case is unreachable
under the length guard in `matchesPartialVer`. -/
def partsMatch : List GoStr → List GoStr → Bool
  | [], _ => true
  | _ :: _, [] => false
  | p :: ps, v :: vs =>
    (match atoi p, atoi v with
     | some pn, some vn => decide (pn = vn)
     | _, _ => p == v) && partsMatch ps vs

/-- Source function `matchesPartial`: the version must have at least as
many dot-components as the partial, and each partial component must match. -/
def matchesPartialVer (version : GoStr) (partialParts : List GoStr) : Bool :=
  let versionParts := splitDot (trimPrefixV version)
  if versionParts.length < partialParts.length then false
  else partsMatch partialParts versionParts

/-- One step of the stable insertion sort modelling `sortVersionsDesc`:
`x` is placed before the first element it compares strictly above.
Go's `sort.Slice` runs an insertion sort on slices of the sizes that occur
here, which is exactly this stable sort; every property proved below only
uses that the output is sorted by the comparator. -/
def insertDesc (x : GoStr) : List GoStr → List GoStr
  | [] => [x]
  | y :: ys => if compareVersionStrings x y > 0 then x :: y :: ys else y :: insertDesc x ys

/-- `sortVersionsDesc`: sort version strings descending by
`compareVersionStrings`. -/
def sortVersionsDesc (versions : List GoStr) : List GoStr :=
  versions.foldl (fun acc v => insertDesc v acc) []

/-- The single error value produced by `ResolvePartialVersion`
(`fmt.Errorf("no version matching %q found", input)`), which the spec's
taxonomy names `NoMatchingVersion`. -/
inductive ResolveError where
  | NoMatchingVersion (input : GoStr)
deriving DecidableEq

/-- `ResolvePartialVersion`: strip the `v` prefix; an input of three or more
dot-components is returned as-is without validation; otherwise the matching
candidates are collected and the highest (after descending sort) is
returned, or an error when none match. -/
def ResolvePartialVersion (input : GoStr) (available : List GoStr) : Except ResolveError GoStr :=
  let inp := trimPrefixV input
  let inputParts := splitDot inp
  if 3 ≤ inputParts.length then .ok inp
  else
    let ms := available.filter (fun v => matchesPartialVer v inputParts)
    if ms = [] then .error (.NoMatchingVersion inp)
    else .ok ((sortVersionsDesc ms).headD [])

/-- `IsPartialVersion`: fewer than three dot-components after stripping
the `v` prefix. -/
def IsPartialVersion (input : GoStr) : Bool :=
  decide ((splitDot (trimPrefixV input)).length < 3)

/-- Modelled from the spec: "standard version ordering" — numeric
(major, minor, patch) compared lexicographically, and a version carrying a
pre-release tag sorts strictly below the untagged version with the same
numeric triple. Used only to state what the spec demands of the resolver's
ordering, for comparison against `compareVersionStrings`. -/
def specParseVersion (s : GoStr) : Option (Int × Int × Int × Option GoStr) :=
  let s := trimPrefixV s
  let core := s.takeWhile (fun c => c ≠ '-')
  let rest := s.dropWhile (fun c => c ≠ '-')
  let tag : Option GoStr := match rest with
    | [] => none
    | _ :: t => some t
  match splitDot core with
  | [x, y, z] =>
    match atoi x, atoi y, atoi z with
    | some a, some b, some c => some (a, b, c, tag)
    | _, _, _ => none
  | _ => none

/-- Modelled from the spec: strict "standard version ordering" on version
strings — triples compare lexicographically, and with equal triples a
pre-release version is strictly below the release. -/
def specVersionLt (a b : GoStr) : Bool :=
  match specParseVersion a, specParseVersion b with
  | some (a1, a2, a3, ta), some (b1, b2, b3, tb) =>
    decide (a1 < b1 ∨ (a1 = b1 ∧ (a2 < b2 ∨ (a2 = b2 ∧ (a3 < b3 ∨
      (a3 = b3 ∧ ta.isSome ∧ tb = none))))))
  | _, _ => false

/-! ## Package `manifest` (src/unnamed/part_004): the default source chain

The four source constructors (`NewHTTPSource`, `NewCachedSource`,
`NewEmbeddedSource`, `NewFallbackSource`) live outside the provided files;
following the spec's description of them as opaque composable sources, they
are modelled as the constructors of a syntax tree. `DefaultRemoteURL`,
`DefaultCacheTTL` and the cache directory are likewise constants defined
elsewhere, so they appear here as parameters. -/

/-- A manifest source: the composable chain of §4.2 of the spec. -/
inductive Source where
  | http (url : GoStr)
  | cached (inner : Source) (cacheDir : GoStr) (ttl : Nat)
  | embedded
  | fallback (primary secondary : Source)
deriving DecidableEq

/-- `createDefaultSource`: build the layered stack
`Fallback(Cached(Remote), Embedded)`. -/
def createDefaultSource (remoteURL cacheDir : GoStr) (cacheTTL : Nat) : Source :=
  .fallback (.cached (.http remoteURL) cacheDir cacheTTL) .embedded

/-- The package-level state `(defaultSource, defaultSourceOnce)`:
`none` models a not-yet-run `sync.Once`. -/
structure ManifestPkgState where
  defaultSource : Option Source
deriving DecidableEq

/-- The state at process start: the chain has not been built. -/
def initialManifestState : ManifestPkgState := ⟨none⟩

/-- `DefaultSource`: run `createDefaultSource` under the `sync.Once`
(modelled as single-process memoization) and return the stored source. -/
def DefaultSource (remoteURL cacheDir : GoStr) (cacheTTL : Nat)
    (st : ManifestPkgState) : Source × ManifestPkgState :=
  match st.defaultSource with
  | some s => (s, st)
  | none =>
    let s := createDefaultSource remoteURL cacheDir cacheTTL
    (s, ⟨some s⟩)

/-! ## Mirror script (src/unnamed/part_000): HTTP retry and job collection -/

/-- The outcome of one `httpClient.Get(url)` call: a transport error or a
response with a status code. The network is modelled as a function from
the attempt number to its outcome. -/
inductive HTTPOutcome where
  | connErr
  | resp (status : Nat)
deriving DecidableEq

/-- The error values `httpGetWithRetry` keeps in `lastErr`. -/
inductive GoHTTPError where
  | connErr
  | httpStatus (code : Nat)
deriving DecidableEq

/-- Which outcomes the loop retries on: connection errors and 5xx. -/
def transientOutcome : HTTPOutcome → Bool
  | .connErr => true
  | .resp st => decide (500 ≤ st)

/-- Final result of `httpGetWithRetry`: a returned response (with the
attempt that produced it) or `(nil, lastErr)` after exhausting retries. -/
inductive RetryResult where
  | ok (attempt status : Nat)
  | fail (lastErr : Option GoHTTPError)
deriving DecidableEq

/-- Observable trace of one `httpGetWithRetry` run: its result, the attempt
numbers tried in order, and the `time.Sleep` durations (in seconds). -/
structure RetryTrace where
  result : RetryResult
  tried : List Nat
  sleeps : List Nat
deriving DecidableEq

/-- The `for attempt := 1; attempt <= maxRetries` loop. `fuel` is the number
of attempts still allowed (`maxRetries - attempt + 1`); the loop sleeps
`attempt * 2` seconds after a transient failure unless this was the last
allowed attempt, and carries the last error for the final return. -/
def retryLoop (outc : Nat → HTTPOutcome) : Nat → Nat → Option GoHTTPError → RetryTrace
  | 0, _, lastE => ⟨.fail lastE, [], []⟩
  | fuel + 1, attempt, _ =>
    match outc attempt with
    | .connErr =>
      let t := retryLoop outc fuel (attempt + 1) (some .connErr)
      ⟨t.result, attempt :: t.tried, (if fuel ≠ 0 then [attempt * 2] else []) ++ t.sleeps⟩
    | .resp st =>
      if 500 ≤ st then
        let t := retryLoop outc fuel (attempt + 1) (some (.httpStatus st))
        ⟨t.result, attempt :: t.tried, (if fuel ≠ 0 then [attempt * 2] else []) ++ t.sleeps⟩
      else ⟨.ok attempt st, [attempt], []⟩

/-- `httpGetWithRetry url maxRetries`, with the url abstracted into the
outcome function. -/
def httpGetWithRetry (outc : Nat → HTTPOutcome) (maxRetries : Nat) : RetryTrace :=
  retryLoop outc maxRetries 1 none

/-- Invariant of the retry loop, for attempts `attempt, attempt+1, ...` with
`fuel` attempts still allowed: at most `fuel` attempts are made and they are
consecutive; every attempt before the last had a transient outcome; a
response is returned by the final attempt made and has status below 500;
failure means all `fuel` attempts were transient; and the loop sleeps
`2 * attempt` seconds after each non-final attempt (linear backoff). -/
def RetrySpec (outc : Nat → HTTPOutcome) (fuel attempt : Nat) (t : RetryTrace) : Prop :=
  t.tried.length ≤ fuel ∧
  (1 ≤ fuel → 1 ≤ t.tried.length) ∧
  t.tried = (List.range t.tried.length).map (fun i => attempt + i) ∧
  (∀ i, i + 1 < t.tried.length → transientOutcome (outc (attempt + i)) = true) ∧
  (∀ k st, t.result = .ok k st → outc k = .resp st ∧ st < 500 ∧
    k + 1 = attempt + t.tried.length) ∧
  (∀ e, t.result = .fail e → t.tried.length = fuel ∧
    ∀ i, i < fuel → transientOutcome (outc (attempt + i)) = true) ∧
  t.sleeps = (List.range (t.tried.length - 1)).map (fun i => (attempt + i) * 2)

/-- Concrete outcome sequence used by witnesses: attempt 1 hits a connection
error, attempt 2 a server error, attempt 3 succeeds with status 200. -/
def outcEx : Nat → HTTPOutcome
  | 1 => .connErr
  | 2 => .resp 503
  | _ => .resp 200

/-- A mirror job; only the fields `fetchJobsFromUpstream` reads are kept,
plus the URL so that distinct jobs for one key stay distinguishable. -/
structure MirrorJob where
  Version : GoStr
  Platform : GoStr
  URL : GoStr
deriving DecidableEq

/-- The dedup key `fmt.Sprintf("%s/%s", job.Version, job.Platform)`. -/
def jobKey (j : MirrorJob) : GoStr := j.Version ++ '/' :: j.Platform

/-- Inner loop of `fetchJobsFromUpstream`: append the jobs whose key is not
yet in `seen`, marking keys as they are added. -/
def addJobsSeen : List MirrorJob → List GoStr → List MirrorJob → List GoStr × List MirrorJob
  | [], seen, acc => (seen, acc)
  | j :: js, seen, acc =>
    if jobKey j ∈ seen then addJobsSeen js seen acc
    else addJobsSeen js (jobKey j :: seen) (acc ++ [j])

/-- `fetchJobsFromUpstream`, starting from the per-source fetch results:
a failed source is skipped (with a warning), an ok source contributes its
jobs through the `seen` filter. -/
def fetchJobsFromUpstream (sources : List (Except GoStr (List MirrorJob))) : List MirrorJob :=
  (sources.foldl
    (fun (st : List GoStr × List MirrorJob) src =>
      match src with
      | .error _ => st
      | .ok jobs => addJobsSeen jobs st.1 st.2)
    ([], [])).2

/-- The jobs all successful sources produce, in source order. -/
def jobStream (sources : List (Except GoStr (List MirrorJob))) : List MirrorJob :=
  (sources.filterMap Except.toOption).flatten

/-- Specification-side dedup: keep the first job for each key, in order.
Stated independently of the `seen`-set implementation so that
`fetchJobsFromUpstream` can be proved to refine it. -/
def dedupByKeyFirst : List MirrorJob → List MirrorJob
  | [] => []
  | j :: js => j :: dedupByKeyFirst (js.filter (fun j2 => jobKey j2 ≠ jobKey j))
termination_by l => l.length
decreasing_by
  exact Nat.lt_succ_of_le (List.length_filter_le _ _)

/-- Re-expression of the `seen`-set loop as a function of the seen keys and
the remaining stream, used to relate `addJobsSeen` to `dedupByKeyFirst`. -/
def dedupWithSeen : List GoStr → List MirrorJob → List MirrorJob
  | _, [] => []
  | seen, j :: js =>
    if jobKey j ∈ seen then dedupWithSeen seen js
    else j :: dedupWithSeen (jobKey j :: seen) js

/-- Concrete jobs for witnesses: `jobA` and `jobB` share a (version,
platform) key, `jobC` differs. -/
def jobA : MirrorJob := ⟨gs "1.0.0", gs "linux-amd64", gs "u1"⟩

/-- Second job with the same key as `jobA` but a different URL. -/
def jobB : MirrorJob := ⟨gs "1.0.0", gs "linux-amd64", gs "u2"⟩

/-- Job with a distinct key. -/
def jobC : MirrorJob := ⟨gs "2.0.0", gs "linux-amd64", gs "u3"⟩

/-! ## Package `path` (settings.go lines 89-586): the Windows PATH installer -/

/-- Go `strings.TrimSpace` (whitespace per `Char.isWhitespace`). -/
def trimSpace (s : GoStr) : GoStr :=
  ((s.dropWhile Char.isWhitespace).reverse.dropWhile Char.isWhitespace).reverse

/-- Go `strings.EqualFold`, modelled as equality after per-character
lower-casing (exact for the ASCII paths involved). -/
def equalFold (a b : GoStr) : Bool := a.map Char.toLower == b.map Char.toLower

/-- Go `strings.Join(l, ";")`. -/
def joinSemi : List GoStr → GoStr
  | [] => []
  | [x] => x
  | x :: y :: ys => x ++ ';' :: joinSemi (y :: ys)

/-- The action strings `""`, `"add"` and `"move"` of `checkUserPath`. -/
inductive PathAction where
  | noAction
  | add
  | move
deriving DecidableEq

/-- The search loop of `checkUserPath`/`checkSystemPath`: index of the first
entry equal (trimmed, case-insensitively) to the shims directory. -/
def findShimsIdx (shimsDir : GoStr) : List GoStr → Option Nat
  | [] => none
  | p :: ps =>
    if equalFold (trimSpace p) shimsDir then some 0
    else (findShimsIdx shimsDir ps).map (· + 1)

/-- `checkUserPath`: `none` models a registry `Path` value that does not
exist. Returns (needsUpdate, action). -/
def checkUserPath (shimsDir : GoStr) (currentPath : Option GoStr) : Bool × PathAction :=
  match currentPath with
  | none => (true, .add)
  | some p =>
    if p = [] then (true, .add)
    else
      match findShimsIdx shimsDir (splitSemi p) with
      | some 0 => (false, .noAction)
      | some (_ + 1) => (true, .move)
      | none => (true, .add)

/-- The filtering loop of `modifyUserPath`: trim each entry, drop empty
entries and every case-insensitive occurrence of the shims directory. -/
def filteredEntries (shimsDir : GoStr) (currentPath : GoStr) : List GoStr :=
  ((splitSemi currentPath).map trimSpace).filter
    (fun t => !t.isEmpty && !equalFold t shimsDir)

/-- `modifyUserPath`: prepend the shims directory to the filtered entries.
(`newPath := shimsDir; if len(filtered) > 0 newPath += ";" + Join(...)`.) -/
def modifyUserPath (shimsDir : GoStr) (currentPath : GoStr) : GoStr :=
  joinSemi (shimsDir :: filteredEntries shimsDir currentPath)

/-- `addToUserPath` without the interactive conflict warning: check the
current PATH, modify only when an update is needed; returns the resulting
PATH value and whether the registry was written. -/
def addToUserPathModel (shimsDir : GoStr) (currentPath : Option GoStr) : GoStr × Bool :=
  if (checkUserPath shimsDir currentPath).1 then
    (modifyUserPath shimsDir (currentPath.getD []), true)
  else (currentPath.getD [], false)

/-! ## Package `config` (settings.go lines 1-87): settings loading -/

/-- `InstallTypeSystem`. -/
def InstallTypeSystem : GoStr := gs "system"

/-- `InstallTypeUser`. -/
def InstallTypeUser : GoStr := gs "user"

/-- The `Settings` struct. -/
structure Settings where
  InstallType : GoStr
deriving DecidableEq

/-- Outcome of `os.ReadFile(settingsPath)`. -/
inductive ReadFileResult where
  | notExist
  | readErr
  | ok (data : GoStr)
deriving DecidableEq

/-- The two failure classes of `LoadSettings`. -/
inductive LoadError where
  | ioErr
  | jsonErr
deriving DecidableEq

/-- `LoadSettings`, with the filesystem read and `json.Unmarshal`
(an external library) abstracted into parameters: a missing file yields the
system default, an unreadable file or unparsable payload fails, and a parsed
install type outside {system, user} is coerced to system. -/
def LoadSettings (read : ReadFileResult) (unmarshal : GoStr → Option Settings) :
    Except LoadError Settings :=
  match read with
  | .notExist => .ok ⟨InstallTypeSystem⟩
  | .readErr => .error .ioErr
  | .ok data =>
    match unmarshal data with
    | none => .error .jsonErr
    | some s =>
      if s.InstallType ≠ InstallTypeSystem ∧ s.InstallType ≠ InstallTypeUser then
        .ok ⟨InstallTypeSystem⟩
      else .ok s

/-! ## Command `list` (install_test.go context): active-version marking -/

/-- The `isActive` computation of `printVersionLine`:
`isLocal || (isGlobal && localVersion == "")`. -/
def printVersionLineActive (version globalVersion localVersion : GoStr) : Bool :=
  (version == localVersion) || ((version == globalVersion) && (localVersion == ([] : GoStr)))

/-! ## Lemmas about the component comparator -/

lemma cmpHead_eq_neg_cmpTail (l : List Int) : cmpHead l = -cmpTail l := by
  induction l with
  | nil => simp [cmpHead, cmpTail]
  | cons b bs ih =>
    by_cases hb : b = 0
    · simp [cmpHead, cmpTail, hb, ih]
    · simp [cmpHead, cmpTail, hb]

lemma cmpParts_nil_left (bs : List Int) : cmpParts [] bs = cmpTail bs := rfl

lemma cmpParts_nil_right (as : List Int) : cmpParts as [] = cmpHead as := by
  cases as <;> rfl

lemma cmpParts_self (l : List Int) : cmpParts l l = 0 := by
  induction l with
  | nil => rfl
  | cons a as ih => simp [cmpParts, ih]

lemma cmpParts_antisymm (a b : List Int) : cmpParts a b = -(cmpParts b a) := by
  induction a generalizing b with
  | nil =>
    rw [cmpParts_nil_left, cmpParts_nil_right, cmpHead_eq_neg_cmpTail]
    simp
  | cons x xs ih =>
    cases b with
    | nil =>
      rw [cmpParts_nil_right, cmpParts_nil_left, cmpHead_eq_neg_cmpTail]
    | cons y ys =>
      simp only [cmpParts]
      by_cases h : x = y
      · simp [h, ih ys]
      · have h2 : y ≠ x := fun hyx => h hyx.symm
        rw [if_pos h, if_pos h2]
        omega

lemma cmpParts_view (a b : List Int) (h : a ≠ [] ∨ b ≠ []) :
    cmpParts a b =
      if a.headD 0 ≠ b.headD 0 then a.headD 0 - b.headD 0
      else cmpParts a.tail b.tail := by
  match a, b with
  | [], [] => simp at h
  | [], y :: ys =>
    simp only [cmpParts_nil_left, List.headD_nil, List.headD_cons,
      List.tail_nil, List.tail_cons]
    by_cases hy : y = 0
    · subst hy
      simp [cmpTail, cmpParts_nil_left]
    · have h0 : (0 : Int) ≠ y := fun he => hy he.symm
      rw [if_pos h0]
      simp [cmpTail, hy]
  | x :: xs, [] =>
    simp only [cmpParts_nil_right, List.headD_nil, List.headD_cons,
      List.tail_nil, List.tail_cons]
    by_cases hx : x = 0
    · subst hx
      simp [cmpHead, cmpParts_nil_right]
    · rw [if_pos hx]
      simp [cmpHead, hx]
  | x :: xs, y :: ys => rfl

lemma cmpParts_trans_aux :
    ∀ n a b c, a.length + b.length + c.length ≤ n →
      0 ≤ cmpParts a b → 0 ≤ cmpParts b c → 0 ≤ cmpParts a c := by
  intro n
  induction n with
  | zero =>
    intro a b c hlen h1 h2
    have ha : a = [] := List.length_eq_zero.mp (by omega)
    have hc : c = [] := List.length_eq_zero.mp (by omega)
    subst ha; subst hc
    rfl
  | succ n ih =>
    intro a b c hlen h1 h2
    by_cases hab : a = [] ∧ b = []
    · obtain ⟨ha, hb⟩ := hab; subst ha; subst hb; exact h2
    by_cases hbc : b = [] ∧ c = []
    · obtain ⟨hb, hc⟩ := hbc; subst hb; subst hc; exact h1
    by_cases hac : a = [] ∧ c = []
    · obtain ⟨ha, hc⟩ := hac; subst ha; subst hc; rfl
    rw [cmpParts_view a b (by tauto)] at h1
    rw [cmpParts_view b c (by tauto)] at h2
    rw [cmpParts_view a c (by tauto)]
    by_cases h12 : a.headD 0 = b.headD 0
    · by_cases h23 : b.headD 0 = c.headD 0
      · rw [if_neg (by omega)]
        rw [if_neg (by omega)] at h1
        rw [if_neg (by omega)] at h2
        refine ih a.tail b.tail c.tail ?_ h1 h2
        have hne : a ≠ [] ∨ b ≠ [] := by tauto
        have hpos : 0 < a.length ∨ 0 < b.length := by
          rcases hne with h | h
          · exact Or.inl (List.length_pos.mpr h)
          · exact Or.inr (List.length_pos.mpr h)
        have la := List.length_tail a
        have lb := List.length_tail b
        have lc := List.length_tail c
        omega
      · rw [if_neg (by omega)] at h1
        rw [if_pos (by omega)] at h2
        rw [if_pos (by omega)]
        omega
    · by_cases h23 : b.headD 0 = c.headD 0
      · rw [if_pos (by omega)] at h1
        rw [if_neg (by omega)] at h2
        rw [if_pos (by omega)]
        omega
      · rw [if_pos (by omega)] at h1
        rw [if_pos (by omega)] at h2
        by_cases h13 : a.headD 0 = c.headD 0
        · exfalso; omega
        · rw [if_pos (by omega)]
          omega

lemma compareVersionStrings_trans (x y z : GoStr)
    (h1 : 0 ≤ compareVersionStrings x y) (h2 : 0 ≤ compareVersionStrings y z) :
    0 ≤ compareVersionStrings x z :=
  cmpParts_trans_aux
    ((parseVersionParts x).length + (parseVersionParts y).length +
      (parseVersionParts z).length)
    _ _ _ le_rfl h1 h2

lemma compareVersionStrings_self (x : GoStr) : compareVersionStrings x x = 0 :=
  cmpParts_self _

lemma compareVersionStrings_antisymm (x y : GoStr) :
    compareVersionStrings x y = -(compareVersionStrings y x) :=
  cmpParts_antisymm _ _

/-! ## Lemmas about the descending sort -/

lemma mem_insertDesc {x z : GoStr} {l : List GoStr} :
    z ∈ insertDesc x l ↔ z = x ∨ z ∈ l := by
  induction l with
  | nil => simp [insertDesc]
  | cons y ys ih =>
    simp only [insertDesc]
    split
    · simp [List.mem_cons]
    · simp only [List.mem_cons, ih]
      tauto

lemma pairwise_insertDesc {x : GoStr} {l : List GoStr}
    (h : l.Pairwise (fun u v => 0 ≤ compareVersionStrings u v)) :
    (insertDesc x l).Pairwise (fun u v => 0 ≤ compareVersionStrings u v) := by
  induction l with
  | nil => simp [insertDesc]
  | cons y ys ih =>
    rw [List.pairwise_cons] at h
    obtain ⟨hy, hys⟩ := h
    simp only [insertDesc]
    split
    · rename_i hxy
      refine List.Pairwise.cons ?_ (List.Pairwise.cons hy hys)
      intro z hz
      rcases List.mem_cons.mp hz with rfl | hz
      · omega
      · exact compareVersionStrings_trans x y z (by omega) (hy z hz)
    · rename_i hxy
      refine List.Pairwise.cons ?_ (ih hys)
      intro z hz
      rcases mem_insertDesc.mp hz with rfl | hz
      · have := compareVersionStrings_antisymm z y
        omega
      · exact hy z hz

lemma foldl_insertDesc_mem (l : List GoStr) :
    ∀ acc z, z ∈ l.foldl (fun a v => insertDesc v a) acc ↔ z ∈ acc ∨ z ∈ l := by
  induction l with
  | nil => intro acc z; simp
  | cons v vs ih =>
    intro acc z
    simp only [List.foldl_cons]
    rw [ih]
    simp only [mem_insertDesc, List.mem_cons]
    tauto

lemma foldl_insertDesc_pairwise (l : List GoStr) :
    ∀ acc, acc.Pairwise (fun u v => 0 ≤ compareVersionStrings u v) →
      (l.foldl (fun a v => insertDesc v a) acc).Pairwise
        (fun u v => 0 ≤ compareVersionStrings u v) := by
  induction l with
  | nil => intro acc h; simpa using h
  | cons v vs ih =>
    intro acc h
    simp only [List.foldl_cons]
    exact ih _ (pairwise_insertDesc h)

lemma sortVersionsDesc_mem (l : List GoStr) (z : GoStr) :
    z ∈ sortVersionsDesc l ↔ z ∈ l := by
  unfold sortVersionsDesc
  rw [foldl_insertDesc_mem]
  simp

lemma sortVersionsDesc_pairwise (l : List GoStr) :
    (sortVersionsDesc l).Pairwise (fun u v => 0 ≤ compareVersionStrings u v) :=
  foldl_insertDesc_pairwise l [] (by simp)

lemma sortVersionsDesc_ne_nil {l : List GoStr} (h : l ≠ []) :
    sortVersionsDesc l ≠ [] := by
  obtain ⟨x, xs, rfl⟩ := List.exists_cons_of_ne_nil h
  intro hcontra
  have hx : x ∈ sortVersionsDesc (x :: xs) :=
    (sortVersionsDesc_mem _ _).mpr (by simp)
  rw [hcontra] at hx
  exact (List.not_mem_nil x) hx

lemma sortVersionsDesc_head_max {l : List GoStr} {m : GoStr} {t : List GoStr}
    (h : sortVersionsDesc l = m :: t) :
    ∀ v ∈ l, 0 ≤ compareVersionStrings m v := by
  intro v hv
  have hvmem : v ∈ m :: t := by
    rw [← h]
    exact (sortVersionsDesc_mem _ _).mpr hv
  rcases List.mem_cons.mp hvmem with rfl | hvt
  · simp [compareVersionStrings_self]
  · have hp := sortVersionsDesc_pairwise l
    rw [h] at hp
    exact (List.pairwise_cons.mp hp).1 v hvt

lemma resolve_partial_eq (input : GoStr) (available : List GoStr)
    (hlen : ¬ 3 ≤ (splitDot (trimPrefixV input)).length) :
    ResolvePartialVersion input available =
      (if available.filter
            (fun v => matchesPartialVer v (splitDot (trimPrefixV input))) = [] then
        .error (.NoMatchingVersion (trimPrefixV input))
       else
        .ok ((sortVersionsDesc (available.filter
          (fun v => matchesPartialVer v (splitDot (trimPrefixV input))))).headD [])) := by
  unfold ResolvePartialVersion
  rw [if_neg hlen]

/-! ## Lemmas about splitting -/

lemma splitOnP_ne_nil (p : Char → Bool) (s : GoStr) : splitOnP p s ≠ [] := by
  cases s with
  | nil => simp [splitOnP]
  | cons c cs =>
    simp only [splitOnP]
    split <;> simp

lemma splitOnP_append_sep (p : Char → Bool) (d : Char) (hd : p d = true)
    (xs ys : GoStr) :
    splitOnP p (xs ++ d :: ys) = splitOnP p xs ++ splitOnP p ys := by
  induction xs with
  | nil => simp [splitOnP, hd]
  | cons c cs ih =>
    by_cases hc : p c = true
    · rw [List.cons_append]
      rw [show splitOnP p (c :: (cs ++ d :: ys)) =
          (if p c then [] :: splitOnP p (cs ++ d :: ys)
           else (c :: (splitOnP p (cs ++ d :: ys)).headD []) ::
             (splitOnP p (cs ++ d :: ys)).tail) from rfl]
      rw [show splitOnP p (c :: cs) =
          (if p c then [] :: splitOnP p cs
           else (c :: (splitOnP p cs).headD []) :: (splitOnP p cs).tail) from rfl]
      rw [if_pos hc, if_pos hc, ih]
      simp
    · simp only [Bool.not_eq_true] at hc
      rw [List.cons_append]
      rw [show splitOnP p (c :: (cs ++ d :: ys)) =
          (if p c then [] :: splitOnP p (cs ++ d :: ys)
           else (c :: (splitOnP p (cs ++ d :: ys)).headD []) ::
             (splitOnP p (cs ++ d :: ys)).tail) from rfl]
      rw [show splitOnP p (c :: cs) =
          (if p c then [] :: splitOnP p cs
           else (c :: (splitOnP p cs).headD []) :: (splitOnP p cs).tail) from rfl]
      rw [if_neg (by simp [hc]), if_neg (by simp [hc]), ih]
      obtain ⟨f, rest, hf⟩ := List.exists_cons_of_ne_nil (splitOnP_ne_nil p cs)
      rw [hf]
      simp

lemma splitOnP_no_sep (p : Char → Bool) (s : GoStr)
    (h : ∀ c ∈ s, p c = false) : splitOnP p s = [s] := by
  induction s with
  | nil => rfl
  | cons c cs ih =>
    have hc := h c (by simp)
    have hrest : ∀ x ∈ cs, p x = false := fun x hx => h x (by simp [hx])
    simp only [splitOnP, hc, Bool.false_eq_true, if_false]
    rw [ih hrest]
    simp

lemma mem_of_mem_splitOnP (p : Char → Bool) :
    ∀ s f, f ∈ splitOnP p s → ∀ c ∈ f, c ∈ s ∧ p c = false := by
  intro s
  induction s with
  | nil =>
    intro f hf c hc
    simp [splitOnP] at hf
    subst hf
    simp at hc
  | cons a as ih =>
    intro f hf c hc
    simp only [splitOnP] at hf
    by_cases ha : p a = true
    · simp [ha] at hf
      rcases hf with rfl | hf
      · simp at hc
      · obtain ⟨h1, h2⟩ := ih f hf c hc
        exact ⟨by simp [h1], h2⟩
    · simp only [Bool.not_eq_true] at ha
      simp only [ha, Bool.false_eq_true, if_false] at hf
      obtain ⟨f0, rest, hsplit⟩ := List.exists_cons_of_ne_nil (splitOnP_ne_nil p as)
      rw [hsplit] at hf
      simp only [List.headD_cons, List.tail_cons, List.mem_cons] at hf
      rcases hf with rfl | hf
      · rcases List.mem_cons.mp hc with rfl | hc0
        · exact ⟨by simp, ha⟩
        · have h0 := ih f0 (by rw [hsplit]; simp) c hc0
          exact ⟨by simp [h0.1], h0.2⟩
      · have h0 := ih f (by rw [hsplit]; simp [hf]) c hc
        exact ⟨by simp [h0.1], h0.2⟩

lemma filter_isEmpty_filterMap_atoi (l : List GoStr) :
    (l.filter (fun f => !f.isEmpty)).filterMap atoi = l.filterMap atoi := by
  induction l with
  | nil => rfl
  | cons f fs ih =>
    by_cases hf : f = []
    · subst hf
      simp [List.filter_cons, List.filterMap_cons, atoi, ih]
    · have : f.isEmpty = false := by
        cases f with
        | nil => exact absurd rfl hf
        | cons c cs => rfl
      simp [List.filter_cons, List.filterMap_cons, this, ih]

lemma atoi_nil : atoi [] = none := rfl

lemma parseVersionParts_eq (v : GoStr) :
    parseVersionParts v = (splitOnP dotDash (trimPrefixV v)).filterMap atoi := by
  unfold parseVersionParts fieldsDotDash
  rw [filter_isEmpty_filterMap_atoi]

lemma trimPrefixV_append (v w : GoStr) (hv : v ≠ []) :
    trimPrefixV (v ++ w) = trimPrefixV v ++ w := by
  cases v with
  | nil => exact absurd rfl hv
  | cons c cs =>
    simp only [List.cons_append, trimPrefixV]
    by_cases hc : c = 'v' <;> simp [hc]

lemma parseVersionParts_tag (v tag : GoStr)
    (htag : ∀ c ∈ tag, dotDash c = false) (hatoi : atoi tag = none) :
    parseVersionParts (v ++ '-' :: tag) = parseVersionParts v := by
  rw [parseVersionParts_eq, parseVersionParts_eq]
  have hdash : dotDash '-' = true := by decide
  by_cases hv : v = []
  · subst hv
    simp only [List.nil_append]
    rw [show trimPrefixV ('-' :: tag) = '-' :: tag from by simp [trimPrefixV]]
    have happ := splitOnP_append_sep dotDash '-' hdash [] tag
    simp only [List.nil_append] at happ
    rw [happ, splitOnP_no_sep dotDash tag htag]
    simp [splitOnP, atoi_nil, hatoi, trimPrefixV, List.filterMap_cons]
  · rw [trimPrefixV_append v ('-' :: tag) hv,
      splitOnP_append_sep dotDash '-' hdash (trimPrefixV v) tag,
      splitOnP_no_sep dotDash tag htag]
    simp [List.filterMap_append, List.filterMap_cons, hatoi]

/-! ## Claims C1, C2, C3, C5: the version resolver -/

/-- Claim C1, amended: for every partial input `p` (one or two
dot-components after stripping the `v` prefix) and candidate list `S`,
`ResolvePartialVersion` fails with `NoMatchingVersion` exactly when no
candidate matches `p` component-wise, and otherwise returns a matching
candidate of `S` that is maximal among the matching candidates under the
resolver's own comparison `compareVersionStrings`. (The original claim said
"maximum under standard version ordering"; `C1_counterexample` shows the
code's comparison ignores non-numeric pre-release tags, so the result need
not be the standard-ordering maximum.) -/
theorem C1_resolve_partial_max (input : GoStr) (available : List GoStr)
    (h : IsPartialVersion input = true) :
    (ResolvePartialVersion input available =
        .error (.NoMatchingVersion (trimPrefixV input)) ↔
      ∀ v ∈ available, matchesPartialVer v (splitDot (trimPrefixV input)) = false) ∧
    (∀ m, ResolvePartialVersion input available = .ok m →
      m ∈ available ∧ matchesPartialVer m (splitDot (trimPrefixV input)) = true ∧
      ∀ v ∈ available, matchesPartialVer v (splitDot (trimPrefixV input)) = true →
        0 ≤ compareVersionStrings m v) := by
  have hlen : ¬ 3 ≤ (splitDot (trimPrefixV input)).length := by
    simp only [IsPartialVersion, decide_eq_true_eq] at h
    omega
  rw [resolve_partial_eq input available hlen]
  by_cases hms : available.filter
      (fun v => matchesPartialVer v (splitDot (trimPrefixV input))) = []
  · rw [if_pos hms]
    constructor
    · constructor
      · intro _ v hv
        have hnot := List.filter_eq_nil.mp hms v hv
        simpa using hnot
      · intro _
        rfl
    · intro m hm
      exact absurd hm (by simp)
  · rw [if_neg hms]
    constructor
    · constructor
      · intro hcontra
        exact absurd hcontra (by simp)
      · intro hall
        exfalso
        apply hms
        apply List.filter_eq_nil.mpr
        intro v hv
        simp [hall v hv]
    · intro m hm
      obtain ⟨m0, t, hsort⟩ :=
        List.exists_cons_of_ne_nil (sortVersionsDesc_ne_nil hms)
      rw [hsort] at hm
      simp only [List.headD_cons, Except.ok.injEq] at hm
      subst hm
      have hmem : m0 ∈ available.filter
          (fun v => matchesPartialVer v (splitDot (trimPrefixV input))) := by
        rw [← sortVersionsDesc_mem, hsort]
        simp
      have hmf := List.mem_filter.mp hmem
      refine ⟨hmf.1, by simpa using hmf.2, ?_⟩
      intro v hv hvm
      have hvf : v ∈ available.filter
          (fun v => matchesPartialVer v (splitDot (trimPrefixV input))) :=
        List.mem_filter.mpr ⟨hv, by simp [hvm]⟩
      exact sortVersionsDesc_head_max hsort v hvf

/-- Claim C1, counterexample to the original wording: on input `"1"` with
candidates `["1.0.0-rc1", "1.0.0"]` the resolver returns `"1.0.0-rc1"`,
although `"1.0.0"` also matches the partial and is strictly greater under
the spec's standard version ordering (pre-release below release) — so the
returned version is not the standard-ordering maximum. -/
theorem C1_counterexample :
    ResolvePartialVersion (gs "1") [gs "1.0.0-rc1", gs "1.0.0"] =
      .ok (gs "1.0.0-rc1") ∧
    matchesPartialVer (gs "1.0.0") (splitDot (trimPrefixV (gs "1"))) = true ∧
    specVersionLt (gs "1.0.0-rc1") (gs "1.0.0") = true := by
  refine ⟨by decide, by decide, by decide⟩

/-- Claim C1, witness: the amended theorem applied to input `"22"` with
candidates `["22.0.0", "22.15.1", "21.0.0"]`. -/
theorem C1_witness :
    IsPartialVersion (gs "22") = true ∧
    ResolvePartialVersion (gs "22") [gs "22.0.0", gs "22.15.1", gs "21.0.0"] =
      .ok (gs "22.15.1") ∧
    (gs "22.15.1") ∈ [gs "22.0.0", gs "22.15.1", gs "21.0.0"] ∧
    0 ≤ compareVersionStrings (gs "22.15.1") (gs "22.0.0") := by
  have h := C1_resolve_partial_max (gs "22")
    [gs "22.0.0", gs "22.15.1", gs "21.0.0"] (by decide)
  have h2 := h.2 (gs "22.15.1") (by decide)
  exact ⟨by decide, by decide, h2.1, h2.2.2 (gs "22.0.0") (by decide) (by decide)⟩

/-- Claim C2: an input with three or more dot-separated components is
returned verbatim with the `v` prefix stripped, for every candidate list,
without any membership validation and without failing. -/
theorem C2_full_passthrough (input : GoStr) (available : List GoStr)
    (h : IsPartialVersion input = false) :
    ResolvePartialVersion input available = .ok (trimPrefixV input) := by
  have hlen : 3 ≤ (splitDot (trimPrefixV input)).length := by
    simp only [IsPartialVersion, decide_eq_false_iff_not] at h
    omega
  unfold ResolvePartialVersion
  rw [if_pos hlen]

/-- Claim C2, witness: `"v22.15.0"` against a list not containing it. -/
theorem C2_witness :
    IsPartialVersion (gs "v22.15.0") = false ∧
    ResolvePartialVersion (gs "v22.15.0") [gs "1.0.0"] = .ok (gs "22.15.0") := by
  refine ⟨by decide, ?_⟩
  exact (C2_full_passthrough (gs "v22.15.0") [gs "1.0.0"] (by decide)).trans (by decide)

/-- Claim C3, amended: version strings whose parsed parts are numeric
triples compare lexicographically by component (major, then minor, then
patch); a pre-release tag that does not itself parse as an integer is
ignored by the comparison, so a version with a non-numeric pre-release tag
compares equal to — not strictly below — the corresponding release. -/
theorem C3_numeric_lex_prerelease :
    (∀ (a b : GoStr) (a1 a2 a3 b1 b2 b3 : Int),
      parseVersionParts a = [a1, a2, a3] → parseVersionParts b = [b1, b2, b3] →
      (0 < compareVersionStrings a b ↔
        (b1 < a1 ∨ (a1 = b1 ∧ (b2 < a2 ∨ (a2 = b2 ∧ b3 < a3)))))) ∧
    (∀ (v tag : GoStr), (∀ c ∈ tag, dotDash c = false) → atoi tag = none →
      compareVersionStrings (v ++ '-' :: tag) v = 0) := by
  constructor
  · intro a b a1 a2 a3 b1 b2 b3 ha hb
    unfold compareVersionStrings
    rw [ha, hb]
    simp only [cmpParts, cmpTail]
    by_cases h1 : a1 = b1 <;> by_cases h2 : a2 = b2 <;> by_cases h3 : a3 = b3 <;>
      simp [h1, h2, h3] <;> omega
  · intro v tag htag hatoi
    unfold compareVersionStrings
    rw [parseVersionParts_tag v tag htag hatoi]
    exact cmpParts_self _

/-- Claim C3, counterexample to the original wording: `"1.0.0-rc1"` does not
sort strictly below `"1.0.0"` under the code's comparison — they compare
equal — although the spec's standard ordering puts the pre-release strictly
below. -/
theorem C3_counterexample :
    compareVersionStrings (gs "1.0.0-rc1") (gs "1.0.0") = 0 ∧
    specVersionLt (gs "1.0.0-rc1") (gs "1.0.0") = true := by
  refine ⟨by decide, by decide⟩

/-- Claim C3, witness: the amended theorem applied to the concrete pairs
`"22.15.1" / "22.15.0"` and `"1.2.3-rc1" / "1.2.3"`. -/
theorem C3_witness :
    parseVersionParts (gs "22.15.1") = [22, 15, 1] ∧
    0 < compareVersionStrings (gs "22.15.1") (gs "22.15.0") ∧
    compareVersionStrings (gs "1.2.3" ++ '-' :: gs "rc1") (gs "1.2.3") = 0 := by
  refine ⟨by decide, ?_, ?_⟩
  · exact (C3_numeric_lex_prerelease.1 (gs "22.15.1") (gs "22.15.0")
      22 15 1 22 15 0 (by decide) (by decide)).mpr (by decide)
  · exact C3_numeric_lex_prerelease.2 (gs "1.2.3") (gs "rc1") (by decide) (by decide)

/-- Claim C5, counterexample to the original wording ("for every input"):
with an empty candidate list a full-version input does not fail — it is
passed through. -/
theorem C5_counterexample :
    ResolvePartialVersion (gs "22.15.0") [] = .ok (gs "22.15.0") := by
  decide

/-- Claim C5, amended: for every partial input, the empty candidate list
fails with `NoMatchingVersion`; and `NoMatchingVersion` (on the trimmed
input) is the only error `ResolvePartialVersion` ever produces, so the
empty-candidate failure is the ordinary no-match error, not a distinct
one. -/
theorem C5_empty_candidates (input : GoStr) :
    (IsPartialVersion input = true →
      ResolvePartialVersion input [] =
        .error (.NoMatchingVersion (trimPrefixV input))) ∧
    (∀ available e, ResolvePartialVersion input available = .error e →
      e = .NoMatchingVersion (trimPrefixV input)) := by
  constructor
  · intro h
    have hlen : ¬ 3 ≤ (splitDot (trimPrefixV input)).length := by
      simp only [IsPartialVersion, decide_eq_true_eq] at h
      omega
    rw [resolve_partial_eq input [] hlen]
    simp
  · intro available e he
    unfold ResolvePartialVersion at he
    by_cases hlen : 3 ≤ (splitDot (trimPrefixV input)).length
    · rw [if_pos hlen] at he
      exact absurd he (by simp)
    · rw [if_neg hlen] at he
      by_cases hms : available.filter
          (fun v => matchesPartialVer v (splitDot (trimPrefixV input))) = []
      · rw [if_pos hms] at he
        simp only [Except.error.injEq] at he
        exact he.symm
      · rw [if_neg hms] at he
        exact absurd he (by simp)

/-- Claim C5, witness: the amended theorem applied to input `"22"`. -/
theorem C5_witness :
    IsPartialVersion (gs "22") = true ∧
    ResolvePartialVersion (gs "22") [] =
      .error (.NoMatchingVersion (gs "22")) := by
  refine ⟨by decide, ?_⟩
  exact ((C5_empty_candidates (gs "22")).1 (by decide)).trans (by decide)

/-! ## Claim C4: the default manifest source singleton -/

/-- Claim C4: the default manifest source is the composition
`Fallback(Cached(Remote), Embedded)`; the first call builds it, and any call
on a state that already holds the memoized source returns that identical
value with the state unchanged — the chain is never reconstructed. -/
theorem C4_default_source_memoized (remoteURL cacheDir : GoStr) (cacheTTL : Nat) :
    (DefaultSource remoteURL cacheDir cacheTTL initialManifestState).1 =
      .fallback (.cached (.http remoteURL) cacheDir cacheTTL) .embedded ∧
    (∀ st s st2, DefaultSource remoteURL cacheDir cacheTTL st = (s, st2) →
      DefaultSource remoteURL cacheDir cacheTTL st2 = (s, st2)) ∧
    (∀ s, DefaultSource remoteURL cacheDir cacheTTL ⟨some s⟩ = (s, ⟨some s⟩)) := by
  refine ⟨rfl, ?_, fun s => rfl⟩
  intro st s st2 h
  obtain ⟨ds⟩ := st
  cases ds with
  | none =>
    simp only [DefaultSource, Prod.mk.injEq] at h
    obtain ⟨h1, h2⟩ := h
    subst h1
    subst h2
    rfl
  | some s0 =>
    simp only [DefaultSource, Prod.mk.injEq] at h
    obtain ⟨h1, h2⟩ := h
    subst h1
    subst h2
    rfl

/-- Claim C4, witness: a call on a state already holding a memoized source
returns exactly that source and leaves the state unchanged. -/
theorem C4_witness :
    DefaultSource (gs "https://manifests.dtvem.io") (gs "manifests") 24
      ⟨some Source.embedded⟩ = (Source.embedded, ⟨some Source.embedded⟩) :=
  (C4_default_source_memoized (gs "https://manifests.dtvem.io")
    (gs "manifests") 24).2.1 ⟨some Source.embedded⟩ Source.embedded
    ⟨some Source.embedded⟩ rfl

/-! ## Claim C8: active-version marking in the list command -/

/-- Claim C8: a version line is marked active iff the version equals the
local selection, or it equals the global selection and no local selection is
set — a present local selection takes precedence over global. -/
theorem C8_active_marking (version globalVersion localVersion : GoStr) :
    printVersionLineActive version globalVersion localVersion = true ↔
      (version = localVersion ∨ (version = globalVersion ∧ localVersion = [])) := by
  simp [printVersionLineActive]

/-! ## Claim C9: settings loading -/

/-- Claim C9: `LoadSettings` never returns an install type outside
{system, user}: a missing file yields the system default without error, a
parsed but unrecognized install type is coerced to system without error,
and the only failures are an unreadable file or an unparsable payload. -/
lemma LoadSettings_ok_none (data : GoStr) (unmarshal : GoStr → Option Settings)
    (hu : unmarshal data = none) :
    LoadSettings (.ok data) unmarshal = .error .jsonErr := by
  simp only [LoadSettings, hu]

lemma LoadSettings_ok_some (data : GoStr) (unmarshal : GoStr → Option Settings)
    (s0 : Settings) (hu : unmarshal data = some s0) :
    LoadSettings (.ok data) unmarshal =
      (if s0.InstallType ≠ InstallTypeSystem ∧ s0.InstallType ≠ InstallTypeUser
       then .ok ⟨InstallTypeSystem⟩ else .ok s0) := by
  simp only [LoadSettings, hu]

theorem C9_load_settings (read : ReadFileResult) (unmarshal : GoStr → Option Settings) :
    (∀ s, LoadSettings read unmarshal = .ok s →
      s.InstallType = InstallTypeSystem ∨ s.InstallType = InstallTypeUser) ∧
    (read = .notExist → LoadSettings read unmarshal = .ok ⟨InstallTypeSystem⟩) ∧
    (∀ data s, read = .ok data → unmarshal data = some s →
      s.InstallType ≠ InstallTypeSystem → s.InstallType ≠ InstallTypeUser →
      LoadSettings read unmarshal = .ok ⟨InstallTypeSystem⟩) ∧
    ((∃ e, LoadSettings read unmarshal = .error e) ↔
      (read = .readErr ∨ ∃ data, read = .ok data ∧ unmarshal data = none)) := by
  refine ⟨?_, ?_, ?_, ?_⟩
  · intro s hs
    cases read with
    | notExist =>
      simp only [LoadSettings, Except.ok.injEq] at hs
      left
      rw [← hs]
    | readErr => simp [LoadSettings] at hs
    | ok data =>
      cases hu : unmarshal data with
      | none =>
        rw [LoadSettings_ok_none data unmarshal hu] at hs
        exact absurd hs (by simp)
      | some s0 =>
        rw [LoadSettings_ok_some data unmarshal s0 hu] at hs
        by_cases hval : s0.InstallType ≠ InstallTypeSystem ∧ s0.InstallType ≠ InstallTypeUser
        · rw [if_pos hval] at hs
          simp only [Except.ok.injEq] at hs
          left
          rw [← hs]
        · rw [if_neg hval] at hs
          simp only [Except.ok.injEq] at hs
          subst hs
          tauto
  · intro h
    subst h
    rfl
  · intro data s hread hu hsys huser
    subst hread
    rw [LoadSettings_ok_some data unmarshal s hu, if_pos ⟨hsys, huser⟩]
  · cases read with
    | notExist => simp [LoadSettings]
    | readErr => simp [LoadSettings]
    | ok data =>
      cases hu : unmarshal data with
      | none =>
        rw [LoadSettings_ok_none data unmarshal hu]
        simp [hu]
      | some s0 =>
        rw [LoadSettings_ok_some data unmarshal s0 hu]
        constructor
        · intro hex
          obtain ⟨e, he⟩ := hex
          by_cases hval : s0.InstallType ≠ InstallTypeSystem ∧ s0.InstallType ≠ InstallTypeUser
          · rw [if_pos hval] at he
            exact absurd he (by simp)
          · rw [if_neg hval] at he
            exact absurd he (by simp)
        · intro hr
          rcases hr with hr | ⟨d, hd, hud⟩
          · exact absurd hr (by simp)
          · simp only [ReadFileResult.ok.injEq] at hd
            rw [← hd] at hud
            rw [hud] at hu
            exact absurd hu (by simp)

/-- Claim C9, witness: a readable file whose parsed install type is
unrecognized loads as the system default without error. -/
theorem C9_witness :
    LoadSettings (.ok (gs "x")) (fun _ => some ⟨gs "weird"⟩) =
      .ok ⟨InstallTypeSystem⟩ :=
  (C9_load_settings (.ok (gs "x")) (fun _ => some ⟨gs "weird"⟩)).2.2.1
    (gs "x") ⟨gs "weird"⟩ rfl rfl (by decide) (by decide)

/-! ## Claim C6: bounded retry with linear backoff -/

lemma range_map_shift (a n : Nat) :
    (List.range (n + 1)).map (fun i => a + i) =
      a :: (List.range n).map (fun i => a + 1 + i) := by
  rw [List.range_succ_eq_map]
  simp only [List.map_cons, Nat.add_zero, List.map_map]
  congr 1
  apply List.map_congr_left
  intro i _
  simp only [Function.comp_apply]
  omega

lemma range_map_shift_mul (a n : Nat) :
    (List.range (n + 1)).map (fun i => (a + i) * 2) =
      a * 2 :: (List.range n).map (fun i => (a + 1 + i) * 2) := by
  rw [List.range_succ_eq_map]
  simp only [List.map_cons, Nat.add_zero, List.map_map]
  congr 1
  apply List.map_congr_left
  intro i _
  simp only [Function.comp_apply]
  omega

lemma retrySpec_step (outc : Nat → HTTPOutcome) (fuel attempt : Nat)
    (e0 e1 : Option GoHTTPError)
    (hT : retryLoop outc (fuel + 1) attempt e0 =
      ⟨(retryLoop outc fuel (attempt + 1) e1).result,
       attempt :: (retryLoop outc fuel (attempt + 1) e1).tried,
       (if fuel ≠ 0 then [attempt * 2] else []) ++
         (retryLoop outc fuel (attempt + 1) e1).sleeps⟩)
    (htrans : transientOutcome (outc attempt) = true)
    (IH : RetrySpec outc fuel (attempt + 1) (retryLoop outc fuel (attempt + 1) e1)) :
    RetrySpec outc (fuel + 1) attempt (retryLoop outc (fuel + 1) attempt e0) := by
  obtain ⟨ih1, ih2, ih3, ih4, ih5, ih6, ih7⟩ := IH
  rw [hT]
  refine ⟨?_, ?_, ?_, ?_, ?_, ?_, ?_⟩
  · simp only [List.length_cons]
    omega
  · intro _
    simp
  · simp only [List.length_cons]
    rw [range_map_shift]
    conv_lhs => rw [ih3]
  · intro i hi
    simp only [List.length_cons] at hi
    cases i with
    | zero => simpa using htrans
    | succ j =>
      rw [show attempt + (j + 1) = attempt + 1 + j from by omega]
      exact ih4 j (by omega)
  · intro k st hres
    obtain ⟨ha, hb, hc⟩ := ih5 k st hres
    refine ⟨ha, hb, ?_⟩
    simp only [List.length_cons]
    omega
  · intro e hres
    obtain ⟨hlen, htr⟩ := ih6 e hres
    constructor
    · simp only [List.length_cons]
      omega
    · intro i hi
      cases i with
      | zero => simpa using htrans
      | succ j =>
        rw [show attempt + (j + 1) = attempt + 1 + j from by omega]
        exact htr j (by omega)
  · simp only [List.length_cons]
    by_cases hfuel : fuel = 0
    · subst hfuel
      simp [retryLoop]
    · have hm1 : 1 ≤ (retryLoop outc fuel (attempt + 1) e1).tried.length :=
        ih2 (by omega)
      rw [if_pos hfuel, ih7]
      obtain ⟨m0, hm0⟩ :
          ∃ m0, (retryLoop outc fuel (attempt + 1) e1).tried.length = m0 + 1 :=
        ⟨(retryLoop outc fuel (attempt + 1) e1).tried.length - 1, by omega⟩
      rw [hm0]
      simp only [Nat.add_sub_cancel]
      rw [range_map_shift_mul, List.singleton_append]

lemma retryLoop_spec (outc : Nat → HTTPOutcome) :
    ∀ fuel attempt e0, RetrySpec outc fuel attempt (retryLoop outc fuel attempt e0) := by
  intro fuel
  induction fuel with
  | zero =>
    intro attempt e0
    refine ⟨by simp [retryLoop], ?_, by simp [retryLoop], ?_, ?_, ?_, by simp [retryLoop]⟩
    · intro h
      omega
    · intro i hi
      simp [retryLoop] at hi
    · intro k st hres
      simp [retryLoop] at hres
    · intro e _
      exact ⟨by simp [retryLoop], fun i hi => absurd hi (by omega)⟩
  | succ fuel ih =>
    intro attempt e0
    cases houtc : outc attempt with
    | connErr =>
      have htrans : transientOutcome (outc attempt) = true := by
        simp [transientOutcome, houtc]
      have hT : retryLoop outc (fuel + 1) attempt e0 =
          ⟨(retryLoop outc fuel (attempt + 1) (some .connErr)).result,
           attempt :: (retryLoop outc fuel (attempt + 1) (some .connErr)).tried,
           (if fuel ≠ 0 then [attempt * 2] else []) ++
             (retryLoop outc fuel (attempt + 1) (some .connErr)).sleeps⟩ := by
        simp only [retryLoop, houtc]
      exact retrySpec_step outc fuel attempt e0 (some .connErr) hT htrans
        (ih (attempt + 1) (some .connErr))
    | resp st =>
      by_cases hst : 500 ≤ st
      · have htrans : transientOutcome (outc attempt) = true := by
          simp [transientOutcome, houtc, hst]
        have hT : retryLoop outc (fuel + 1) attempt e0 =
            ⟨(retryLoop outc fuel (attempt + 1) (some (.httpStatus st))).result,
             attempt :: (retryLoop outc fuel (attempt + 1) (some (.httpStatus st))).tried,
             (if fuel ≠ 0 then [attempt * 2] else []) ++
               (retryLoop outc fuel (attempt + 1) (some (.httpStatus st))).sleeps⟩ := by
          simp only [retryLoop, houtc]
          rw [if_pos hst]
        exact retrySpec_step outc fuel attempt e0 (some (.httpStatus st)) hT htrans
          (ih (attempt + 1) (some (.httpStatus st)))
      · have hT : retryLoop outc (fuel + 1) attempt e0 = ⟨.ok attempt st, [attempt], []⟩ := by
          simp only [retryLoop, houtc]
          rw [if_neg hst]
        rw [hT]
        refine ⟨by simp, by simp, by simp [List.range_succ], ?_, ?_, ?_, by simp⟩
        · intro i hi
          simp at hi
        · intro k st2 hres
          simp only [RetryResult.ok.injEq] at hres
          obtain ⟨rfl, rfl⟩ := hres
          exact ⟨houtc, by omega, by simp⟩
        · intro e hres
          simp at hres

/-- Claim C6: for every outcome sequence and retry bound `n`,
`httpGetWithRetry` makes at most `n` attempts (numbered consecutively from
1), retries only after a transient outcome (connection error or status
≥ 500), returns any sub-500 response after the attempt that produced it
with no further attempts, fails only after all `n` attempts were transient,
and sleeps `2 * attempt` seconds between attempts — linear backoff, never
indefinite. -/
theorem C6_retry_bounded (outc : Nat → HTTPOutcome) (maxRetries : Nat) :
    (httpGetWithRetry outc maxRetries).tried.length ≤ maxRetries ∧
    (httpGetWithRetry outc maxRetries).tried =
      (List.range (httpGetWithRetry outc maxRetries).tried.length).map
        (fun i => 1 + i) ∧
    (∀ i, i + 1 < (httpGetWithRetry outc maxRetries).tried.length →
      transientOutcome (outc (1 + i)) = true) ∧
    (∀ k st, (httpGetWithRetry outc maxRetries).result = .ok k st →
      outc k = .resp st ∧ st < 500 ∧
      k = (httpGetWithRetry outc maxRetries).tried.length) ∧
    (∀ e, (httpGetWithRetry outc maxRetries).result = .fail e →
      (httpGetWithRetry outc maxRetries).tried.length = maxRetries ∧
      ∀ i, i < maxRetries → transientOutcome (outc (1 + i)) = true) ∧
    (httpGetWithRetry outc maxRetries).sleeps =
      (List.range ((httpGetWithRetry outc maxRetries).tried.length - 1)).map
        (fun i => (1 + i) * 2) := by
  rw [show httpGetWithRetry outc maxRetries = retryLoop outc maxRetries 1 none
    from rfl]
  obtain ⟨h1, h2, h3, h4, h5, h6, h7⟩ := retryLoop_spec outc maxRetries 1 none
  refine ⟨h1, h3, h4, ?_, h6, h7⟩
  intro k st hk
  obtain ⟨ha, hb, hc⟩ := h5 k st hk
  exact ⟨ha, hb, by omega⟩

/-- Claim C6, witness: on `outcEx` with bound 5 the helper returns the 200
response produced by attempt 3, after sleeping 2 then 4 seconds. -/
theorem C6_witness :
    (httpGetWithRetry outcEx 5).result = .ok 3 200 ∧
    outcEx 3 = .resp 200 ∧ 200 < 500 ∧
    3 = (httpGetWithRetry outcEx 5).tried.length ∧
    (httpGetWithRetry outcEx 5).sleeps = [2, 4] := by
  have h := (C6_retry_bounded outcEx 5).2.2.2.1 3 200 (by decide)
  exact ⟨by decide, h.1, h.2.1, h.2.2, by decide⟩

/-! ## Claim C7: the PATH installer -/

lemma equalFold_refl (a : GoStr) : equalFold a a = true := by
  simp [equalFold]

lemma mem_dropWhile_imp (p : Char → Bool) (l : GoStr) (c : Char)
    (h : c ∈ l.dropWhile p) : c ∈ l := by
  induction l with
  | nil => simpa using h
  | cons x xs ih =>
    rw [List.dropWhile_cons] at h
    by_cases hx : p x = true
    · rw [if_pos hx] at h
      exact List.mem_cons_of_mem _ (ih h)
    · rw [if_neg hx] at h
      exact h

lemma mem_trimSpace {c : Char} {s : GoStr} (h : c ∈ trimSpace s) : c ∈ s := by
  unfold trimSpace at h
  rw [List.mem_reverse] at h
  have h2 := mem_dropWhile_imp _ _ _ h
  rw [List.mem_reverse] at h2
  exact mem_dropWhile_imp _ _ _ h2

lemma splitSemi_joinSemi (l : List GoStr) (hne : l ≠ [])
    (hsep : ∀ f ∈ l, ∀ c ∈ f, (c == ';') = false) :
    splitSemi (joinSemi l) = l := by
  induction l with
  | nil => exact absurd rfl hne
  | cons x xs ih =>
    cases xs with
    | nil =>
      show splitOnP (fun c => c == ';') (joinSemi [x]) = [x]
      simp only [joinSemi]
      exact splitOnP_no_sep _ x (fun c hc => hsep x (by simp) c hc)
    | cons y ys =>
      have hx : splitSemi (x ++ ';' :: joinSemi (y :: ys)) =
          splitSemi x ++ splitSemi (joinSemi (y :: ys)) :=
        splitOnP_append_sep _ ';' (by decide) x (joinSemi (y :: ys))
      have hx2 : splitSemi x = [x] :=
        splitOnP_no_sep _ x (fun c hc => hsep x (by simp) c hc)
      show splitSemi (x ++ ';' :: joinSemi (y :: ys)) = x :: y :: ys
      rw [hx, hx2, ih (by simp) (fun f hf c hc => hsep f (by simp [hf]) c hc)]
      rfl

lemma filteredEntries_spec (shimsDir pc : GoStr) :
    ∀ t ∈ filteredEntries shimsDir pc,
      t ≠ [] ∧ equalFold t shimsDir = false ∧ ∀ c ∈ t, (c == ';') = false := by
  intro t ht
  unfold filteredEntries at ht
  obtain ⟨htm, hcond⟩ := List.mem_filter.mp ht
  simp only [Bool.and_eq_true, Bool.not_eq_true'] at hcond
  obtain ⟨hc1, hc2⟩ := hcond
  refine ⟨?_, hc2, ?_⟩
  · intro hnil
    rw [hnil] at hc1
    simp at hc1
  · obtain ⟨orig, horig, rfl⟩ := List.mem_map.mp htm
    intro c hc
    exact (mem_of_mem_splitOnP _ pc orig horig c (mem_trimSpace hc)).2

lemma checkUserPath_some (shimsDir p : GoStr) :
    checkUserPath shimsDir (some p) =
      (if p = [] then (true, .add)
       else
        match findShimsIdx shimsDir (splitSemi p) with
        | some 0 => (false, .noAction)
        | some (_ + 1) => (true, .move)
        | none => (true, .add)) := rfl

lemma findShimsIdx_cons_true (shimsDir e : GoStr) (rest : List GoStr)
    (h : equalFold (trimSpace e) shimsDir = true) :
    findShimsIdx shimsDir (e :: rest) = some 0 := by
  simp [findShimsIdx, h]

lemma findShimsIdx_eq_zero {shimsDir : GoStr} {entries : List GoStr}
    (h : findShimsIdx shimsDir entries = some 0) :
    ∃ e rest, entries = e :: rest ∧ equalFold (trimSpace e) shimsDir = true := by
  cases entries with
  | nil => simp [findShimsIdx] at h
  | cons e rest =>
    by_cases he : equalFold (trimSpace e) shimsDir = true
    · exact ⟨e, rest, rfl, he⟩
    · exfalso
      simp only [findShimsIdx, he, Bool.false_eq_true, if_false] at h
      cases hf : findShimsIdx shimsDir rest with
      | none => rw [hf] at h; simp at h
      | some n => rw [hf] at h; simp at h

/-- Claim C7: the user-PATH installer is idempotent. When the shims
directory (assumed nonempty, semicolon-free and already trimmed) is the
first PATH entry, nothing is updated and the PATH is unchanged; otherwise
the new PATH splits into the shims directory followed by the other original
entries — trimmed, with empty entries and every case-insensitive occurrence
of the shims directory removed — in their original order, so it contains
the shims directory exactly once (case-insensitively); and running the
operation again on its own output reports no update needed. -/
theorem C7_path_idempotent (shimsDir : GoStr) (currentPath : Option GoStr)
    (h1 : shimsDir ≠ []) (h2 : ∀ c ∈ shimsDir, (c == ';') = false)
    (h3 : trimSpace shimsDir = shimsDir) :
    ((checkUserPath shimsDir currentPath).1 = false →
      addToUserPathModel shimsDir currentPath = (currentPath.getD [], false) ∧
      ∃ e rest, splitSemi (currentPath.getD []) = e :: rest ∧
        equalFold (trimSpace e) shimsDir = true) ∧
    ((checkUserPath shimsDir currentPath).1 = true →
      addToUserPathModel shimsDir currentPath =
        (modifyUserPath shimsDir (currentPath.getD []), true) ∧
      splitSemi (modifyUserPath shimsDir (currentPath.getD [])) =
        shimsDir :: filteredEntries shimsDir (currentPath.getD []) ∧
      (splitSemi (modifyUserPath shimsDir (currentPath.getD []))).countP
        (fun en => equalFold en shimsDir) = 1) ∧
    addToUserPathModel shimsDir
        (some (addToUserPathModel shimsDir currentPath).1) =
      ((addToUserPathModel shimsDir currentPath).1, false) := by
  have hentries := filteredEntries_spec shimsDir (currentPath.getD [])
  have hjoin : splitSemi (modifyUserPath shimsDir (currentPath.getD [])) =
      shimsDir :: filteredEntries shimsDir (currentPath.getD []) := by
    unfold modifyUserPath
    apply splitSemi_joinSemi
    · simp
    · intro f hf c hc
      rcases List.mem_cons.mp hf with rfl | hf2
      · exact h2 c hc
      · exact (hentries f hf2).2.2 c hc
  have hcount : (splitSemi (modifyUserPath shimsDir (currentPath.getD []))).countP
      (fun en => equalFold en shimsDir) = 1 := by
    rw [hjoin, List.countP_cons]
    have hzero : (filteredEntries shimsDir (currentPath.getD [])).countP
        (fun en => equalFold en shimsDir) = 0 := by
      apply List.countP_eq_zero.mpr
      intro t ht
      simp [(hentries t ht).2.1]
    simp [hzero, equalFold_refl]
  have hmodne : modifyUserPath shimsDir (currentPath.getD []) ≠ [] := by
    unfold modifyUserPath
    cases hfe : filteredEntries shimsDir (currentPath.getD []) with
    | nil => simpa [joinSemi] using h1
    | cons a as => simp [joinSemi]
  have hcheck_new : checkUserPath shimsDir
      (some (modifyUserPath shimsDir (currentPath.getD []))) =
      (false, .noAction) := by
    rw [checkUserPath_some, if_neg hmodne, hjoin,
      findShimsIdx_cons_true shimsDir shimsDir _ (by rw [h3]; exact equalFold_refl _)]
  refine ⟨?_, ?_, ?_⟩
  · intro hfalse
    constructor
    · unfold addToUserPathModel
      rw [hfalse]
      simp
    · cases currentPath with
      | none => simp [checkUserPath] at hfalse
      | some p =>
        rw [checkUserPath_some] at hfalse
        by_cases hp : p = []
        · rw [if_pos hp] at hfalse
          simp at hfalse
        · rw [if_neg hp] at hfalse
          cases hidx : findShimsIdx shimsDir (splitSemi p) with
          | none =>
            rw [hidx] at hfalse
            simp at hfalse
          | some n =>
            cases n with
            | zero =>
              obtain ⟨e, rest, he, heq⟩ := findShimsIdx_eq_zero hidx
              exact ⟨e, rest, by simpa using he, heq⟩
            | succ k =>
              rw [hidx] at hfalse
              simp at hfalse
  · intro htrue
    refine ⟨?_, hjoin, hcount⟩
    unfold addToUserPathModel
    rw [htrue]
    simp
  · by_cases hc : (checkUserPath shimsDir currentPath).1 = true
    · have hfirst : addToUserPathModel shimsDir currentPath =
          (modifyUserPath shimsDir (currentPath.getD []), true) := by
        unfold addToUserPathModel
        rw [hc]
        simp
      rw [hfirst]
      unfold addToUserPathModel
      rw [hcheck_new]
      simp
    · have hfalse : (checkUserPath shimsDir currentPath).1 = false := by
        simpa using hc
      have hfirst : addToUserPathModel shimsDir currentPath =
          (currentPath.getD [], false) := by
        unfold addToUserPathModel
        rw [hfalse]
        simp
      rw [hfirst]
      cases currentPath with
      | none => simp [checkUserPath] at hfalse
      | some p =>
        simp only [Option.getD_some]
        unfold addToUserPathModel
        rw [hfalse]
        simp

/-- Claim C7, witness: the theorem applied to shims directory `"shims"` and
PATH `"a;shims;b"` — the stale occurrence is removed, the directory is
prepended, and a second run changes nothing. -/
theorem C7_witness :
    gs "shims" ≠ [] ∧ trimSpace (gs "shims") = gs "shims" ∧
    addToUserPathModel (gs "shims") (some (gs "a;shims;b")) =
      (gs "shims;a;b", true) ∧
    addToUserPathModel (gs "shims") (some (gs "shims;a;b")) =
      (gs "shims;a;b", false) := by
  have h := C7_path_idempotent (gs "shims") (some (gs "a;shims;b"))
    (by decide) (by decide) (by decide)
  refine ⟨by decide, by decide, by decide, ?_⟩
  have h3 := h.2.2
  rw [show (addToUserPathModel (gs "shims") (some (gs "a;shims;b"))).1 =
      gs "shims;a;b" from by decide] at h3
  exact h3

/-! ## Claim C10: upstream job collection -/

lemma addJobsSeen_append_jobs :
    ∀ (js1 js2 : List MirrorJob) (seen : List GoStr) (acc : List MirrorJob),
      addJobsSeen (js1 ++ js2) seen acc =
        addJobsSeen js2 (addJobsSeen js1 seen acc).1 (addJobsSeen js1 seen acc).2 := by
  intro js1
  induction js1 with
  | nil => intro js2 seen acc; rfl
  | cons j js ih =>
    intro js2 seen acc
    simp only [List.cons_append, addJobsSeen]
    by_cases hj : jobKey j ∈ seen
    · rw [if_pos hj, if_pos hj]
      exact ih js2 seen acc
    · rw [if_neg hj, if_neg hj]
      exact ih js2 _ _

lemma fetchJobs_foldl :
    ∀ (sources : List (Except GoStr (List MirrorJob))) (seen : List GoStr)
      (acc : List MirrorJob),
      sources.foldl
        (fun (st : List GoStr × List MirrorJob) src =>
          match src with
          | .error _ => st
          | .ok jobs => addJobsSeen jobs st.1 st.2) (seen, acc) =
      addJobsSeen (jobStream sources) seen acc := by
  intro sources
  induction sources with
  | nil => intro seen acc; rfl
  | cons src rest ih =>
    intro seen acc
    cases src with
    | error e =>
      simp only [List.foldl_cons]
      have hstream : jobStream (Except.error e :: rest) = jobStream rest := by
        unfold jobStream
        simp [Except.toOption]
      rw [hstream]
      exact ih seen acc
    | ok jobs =>
      simp only [List.foldl_cons]
      have hstream : jobStream (Except.ok jobs :: rest) = jobs ++ jobStream rest := by
        unfold jobStream
        simp [Except.toOption]
      rw [hstream, addJobsSeen_append_jobs]
      exact ih (addJobsSeen jobs seen acc).1 (addJobsSeen jobs seen acc).2

lemma addJobsSeen_snd :
    ∀ (js : List MirrorJob) (seen : List GoStr) (acc : List MirrorJob),
      (addJobsSeen js seen acc).2 = acc ++ dedupWithSeen seen js := by
  intro js
  induction js with
  | nil => intro seen acc; simp [addJobsSeen, dedupWithSeen]
  | cons j js ih =>
    intro seen acc
    simp only [addJobsSeen, dedupWithSeen]
    by_cases hj : jobKey j ∈ seen
    · rw [if_pos hj, if_pos hj, ih]
    · rw [if_neg hj, if_neg hj, ih]
      simp

lemma dedupWithSeen_eq (js : List MirrorJob) :
    ∀ seen, dedupWithSeen seen js =
      dedupByKeyFirst (js.filter (fun j => decide (jobKey j ∉ seen))) := by
  induction js with
  | nil =>
    intro seen
    simp [dedupWithSeen, dedupByKeyFirst]
  | cons j js ih =>
    intro seen
    by_cases hj : jobKey j ∈ seen
    · rw [show dedupWithSeen seen (j :: js) = dedupWithSeen seen js from by
        simp [dedupWithSeen, hj]]
      rw [ih seen, List.filter_cons]
      simp [hj]
    · rw [show dedupWithSeen seen (j :: js) =
          j :: dedupWithSeen (jobKey j :: seen) js from by
        simp [dedupWithSeen, hj]]
      rw [ih (jobKey j :: seen), List.filter_cons]
      rw [if_pos (by simp [hj])]
      rw [show dedupByKeyFirst (j :: js.filter (fun j2 => decide (jobKey j2 ∉ seen))) =
          j :: dedupByKeyFirst ((js.filter (fun j2 => decide (jobKey j2 ∉ seen))).filter
            (fun j2 => jobKey j2 ≠ jobKey j)) from by simp [dedupByKeyFirst]]
      congr 1
      rw [List.filter_filter]
      congr 1
      apply List.filter_congr
      intro j2 _
      by_cases h1 : jobKey j2 = jobKey j <;> by_cases h2 : jobKey j2 ∈ seen <;>
        simp [List.mem_cons, h1, h2]

lemma fetchJobs_eq_dedup (sources : List (Except GoStr (List MirrorJob))) :
    fetchJobsFromUpstream sources = dedupByKeyFirst (jobStream sources) := by
  unfold fetchJobsFromUpstream
  rw [fetchJobs_foldl, addJobsSeen_snd, dedupWithSeen_eq]
  have hfilter : (jobStream sources).filter
      (fun j => decide (jobKey j ∉ ([] : List GoStr))) = jobStream sources := by
    apply List.filter_eq_self.mpr
    intro a _
    simp
  rw [hfilter]
  simp

lemma mem_dedupByKeyFirst :
    ∀ (n : Nat) (l : List MirrorJob), l.length ≤ n →
      ∀ x, x ∈ dedupByKeyFirst l → x ∈ l := by
  intro n
  induction n with
  | zero =>
    intro l hl x hx
    have hnil : l = [] := List.length_eq_zero.mp (by omega)
    subst hnil
    simpa [dedupByKeyFirst] using hx
  | succ n ih =>
    intro l hl x hx
    cases l with
    | nil => simpa [dedupByKeyFirst] using hx
    | cons j js =>
      rw [show dedupByKeyFirst (j :: js) =
          j :: dedupByKeyFirst (js.filter (fun j2 => decide (jobKey j2 ≠ jobKey j)))
          from by simp [dedupByKeyFirst]] at hx
      rcases List.mem_cons.mp hx with rfl | hx2
      · simp
      · have hlen : (js.filter (fun j2 => decide (jobKey j2 ≠ jobKey j))).length ≤ n := by
          have hf := List.length_filter_le (fun j2 => decide (jobKey j2 ≠ jobKey j)) js
          simp only [List.length_cons] at hl
          omega
        have hmem := ih _ hlen x hx2
        exact List.mem_cons_of_mem _ (List.mem_of_mem_filter hmem)

lemma pairwise_dedupByKeyFirst :
    ∀ (n : Nat) (l : List MirrorJob), l.length ≤ n →
      (dedupByKeyFirst l).Pairwise (fun a b => jobKey a ≠ jobKey b) := by
  intro n
  induction n with
  | zero =>
    intro l hl
    have hnil : l = [] := List.length_eq_zero.mp (by omega)
    subst hnil
    simp [dedupByKeyFirst]
  | succ n ih =>
    intro l hl
    cases l with
    | nil => simp [dedupByKeyFirst]
    | cons j js =>
      rw [show dedupByKeyFirst (j :: js) =
          j :: dedupByKeyFirst (js.filter (fun j2 => decide (jobKey j2 ≠ jobKey j)))
          from by simp [dedupByKeyFirst]]
      refine List.Pairwise.cons ?_ ?_
      · intro b hb
        have hbf := mem_dedupByKeyFirst _ _ le_rfl b hb
        have hbp := List.of_mem_filter hbf
        simp only [decide_eq_true_eq] at hbp
        exact fun hc => hbp hc.symm
      · apply ih
        have hf := List.length_filter_le (fun j2 => decide (jobKey j2 ≠ jobKey j)) js
        simp only [List.length_cons] at hl
        omega

lemma fetchJobs_skip_error (pre post : List (Except GoStr (List MirrorJob)))
    (e : GoStr) :
    fetchJobsFromUpstream (pre ++ .error e :: post) =
      fetchJobsFromUpstream (pre ++ post) := by
  rw [fetchJobs_eq_dedup, fetchJobs_eq_dedup]
  congr 1
  unfold jobStream
  rw [List.filterMap_append, List.filterMap_append]
  simp [Except.toOption]

/-- Claim C10: the job list collected from the upstream sources is exactly
the source-order job stream deduplicated by (version, platform) key keeping
the first occurrence — so each key appears at most once and the job kept
comes from the earliest source that produced it; a source whose fetch fails
is skipped without affecting the jobs collected from the other sources. -/
theorem C10_dedup_first_wins (sources : List (Except GoStr (List MirrorJob))) :
    fetchJobsFromUpstream sources = dedupByKeyFirst (jobStream sources) ∧
    (fetchJobsFromUpstream sources).Pairwise
      (fun a b => ¬(a.Version = b.Version ∧ a.Platform = b.Platform)) ∧
    ∀ pre e post, sources = pre ++ .error e :: post →
      fetchJobsFromUpstream sources = fetchJobsFromUpstream (pre ++ post) := by
  refine ⟨fetchJobs_eq_dedup sources, ?_, ?_⟩
  · rw [fetchJobs_eq_dedup]
    have hp := pairwise_dedupByKeyFirst (jobStream sources).length _ le_rfl
    exact hp.imp (fun hab hcontra => hab (by
      unfold jobKey
      rw [hcontra.1, hcontra.2]))
  · intro pre e post hs
    rw [hs]
    exact fetchJobs_skip_error pre post e

/-- Claim C10, witness: a failing middle source is skipped, and of two jobs
with the same (version, platform) key the one from the earlier source is
kept while jobs from later sources with fresh keys are still collected. -/
theorem C10_witness :
    fetchJobsFromUpstream [.ok [jobA], .error (gs "boom"), .ok [jobB, jobC]] =
      fetchJobsFromUpstream [.ok [jobA], .ok [jobB, jobC]] ∧
    fetchJobsFromUpstream [.ok [jobA], .error (gs "boom"), .ok [jobB, jobC]] =
      [jobA, jobC] := by
  constructor
  · exact (C10_dedup_first_wins
      [.ok [jobA], .error (gs "boom"), .ok [jobB, jobC]]).2.2
      [.ok [jobA]] (gs "boom") [.ok [jobB, jobC]] rfl
  · decide

end Dtvem
